import Mathlib

/-!
Verification of the chessdb normalization pipeline (`src/parsers.py`).

This file gives a shallow embedding, over `List Char` strings, of the
normalization pipeline implemented by `ChesscomParser` and `LichessParser`
in `src/parsers.py`, and proves/refutes the frozen claims about it.

Python strings are modelled as `List Char`.  The Python string methods and
the (fixed, concrete) regular expressions used by the source are embedded as
executable Lean functions.  Exceptions (`KeyError`, `IndexError`,
`ValueError` from `int(...)`, `TypeError` from `None[1]`) are modelled by
`Option`: `none` means the corresponding Python code raises.
-/

set_option maxRecDepth 200000

/-- Python strings are modelled as lists of characters. -/
abbrev Str := List Char

/-- Convert a Lean string literal into the `List Char` model. -/
def lit (s : String) : Str := s.toList

/-- The ASCII whitespace characters recognized by Python's `str.strip`,
`str.split()` and the regex class `\s` (the source only ever deals with
ASCII text, so the extra Unicode whitespace of Python is not modelled). -/
def isPySpace (c : Char) : Bool :=
  c = ' ' || c = '\t' || c = '\n' || c = '\r' || c = '\x0b' || c = '\x0c'

/-- Python `str.strip()`: remove leading and trailing whitespace. -/
def pyStrip (s : Str) : Str :=
  ((s.dropWhile isPySpace).reverse.dropWhile isPySpace).reverse

/-- Python `str.rstrip("\n\n\n")` (line 190): the argument is read as a *set*
of characters, so this removes all trailing newline characters. -/
def pyRstripNewlines (s : Str) : Str :=
  (s.reverse.dropWhile (fun c => c = '\n')).reverse

/-- First occurrence of `sub` in `s`: returns `(before, after)` where
`s = before ++ sub ++ after` and `before` is shortest, or `none`. -/
def firstOcc (sub : Str) : Str → Option (Str × Str)
  | [] => if sub.isPrefixOf ([] : Str) then some ([], []) else none
  | c :: rest =>
    if sub.isPrefixOf (c :: rest) then some ([], (c :: rest).drop sub.length)
    else (firstOcc sub rest).map (fun p => (c :: p.1, p.2))

/-- Python's substring containment test `sub in s`. -/
def containsSub (sub s : Str) : Bool := (firstOcc sub s).isSome

/-- Python `s.find(sub)`: index of the first occurrence, or `-1`. -/
def pyFind (sub s : Str) : Int :=
  match firstOcc sub s with
  | some p => p.1.length
  | none => -1

/-- Worker for `pySplit`; the fuel bounds the number of separator
occurrences, `s.length + 1` is always sufficient for a non-empty separator. -/
def pySplitAux (sep : Str) : Nat → Str → List Str
  | 0, s => [s]
  | fuel + 1, s =>
    match firstOcc sep s with
    | some p => p.1 :: pySplitAux sep fuel p.2
    | none => [s]

/-- Python `s.split(sep)` with a non-empty separator: split at every
non-overlapping occurrence, keeping empty parts (so `"a,b,".split(",")`
gives `["a", "b", ""]` and `"".split(",")` gives `[""]`). -/
def pySplit (sep s : Str) : List Str := pySplitAux sep (s.length + 1) s

/-- Worker for `pyWords`: `acc` is the current word, reversed. -/
def pyWordsAux : Str → Str → List Str
  | acc, [] => if acc = [] then [] else [acc.reverse]
  | acc, c :: rest =>
    if isPySpace c then
      if acc = [] then pyWordsAux [] rest else acc.reverse :: pyWordsAux [] rest
    else pyWordsAux (c :: acc) rest

/-- Python `s.split()` with no argument: whitespace tokenization, empty
tokens discarded. -/
def pyWords (s : Str) : List Str := pyWordsAux [] s

/-- Python `l[-2:]`: the last two elements (fewer if the list is shorter). -/
def lastTwoOf (l : List Str) : List Str := l.drop (l.length - 2)

/-- Python `" ".join(ws)`. -/
def joinWords (ws : List Str) : Str := List.intercalate [' '] ws

/-- Value of a non-empty all-digit string, `none` otherwise. -/
def digitsToNat (ds : Str) : Option Nat :=
  if ds = [] then none
  else if ds.all Char.isDigit then
    some (ds.foldl (fun acc c => acc * 10 + (c.toNat - '0'.toNat)) 0)
  else none

/-- Python `int(s)` on a string: strip whitespace, optional sign, decimal
digits; `none` models the `ValueError` raised otherwise.  (Python also
accepts underscore digit separators, which never occur in this pipeline and
are not modelled.) -/
def pyIntStr (s : Str) : Option Int :=
  match pyStrip s with
  | '-' :: ds => (digitsToNat ds).map (fun n => -(n : Int))
  | '+' :: ds => (digitsToNat ds).map (fun n => (n : Int))
  | ds => (digitsToNat ds).map (fun n => (n : Int))

/-- Python `str.lower()` (ASCII; tag keys are `[A-Za-z]+` so this agrees
with Python on every key the extractor produces). -/
def lowerStr (s : Str) : Str := s.map Char.toLower

/-- A value stored in a tag mapping: the Python dicts built by the parsers
hold strings, ints (`elodiff`, `nmoves`) and `None`. -/
inductive TagValue where
  | str : Str → TagValue
  | int : Int → TagValue
  | null : TagValue
deriving DecidableEq

/-- The Tag Mapping: a Python dict from (lower-cased) field name to value,
modelled as an association list where insertion overwrites in place. -/
abbrev TagMap := List (Str × TagValue)

/-- Python `d[k] = v`: replace the value of an existing key, else append. -/
def setTag : TagMap → Str → TagValue → TagMap
  | [], k, v => [(k, v)]
  | (k', v') :: rest, k, v =>
    if k' = k then (k, v) :: rest else (k', v') :: setTag rest k v

/-- Python `d[k]`: `none` models a `KeyError`. -/
def getTag : TagMap → Str → Option TagValue
  | [], _ => none
  | (k', v') :: rest, k => if k' = k then some v' else getTag rest k

/-- Python truthiness of a dict value (`if tags["ending"]:`, line 303). -/
def truthy : TagValue → Bool
  | .str s => !s.isEmpty
  | .int n => n != 0
  | .null => false

/-- A match of the tag pattern `\[([A-Za-z]+)\s"([^"]+)"\]` (lines 48 and
267) anchored at the start of `s`: returns the two capture groups and the
rest of the string after the match. -/
def matchTag (s : Str) : Option ((Str × Str) × Str) :=
  match s with
  | '[' :: r1 =>
    let key := r1.takeWhile Char.isAlpha
    if key = [] then none
    else
      match r1.drop key.length with
      | c :: r2 =>
        if isPySpace c then
          match r2 with
          | '"' :: r3 =>
            let v := r3.takeWhile (fun x => x ≠ '"')
            if v = [] then none
            else
              match r3.drop v.length with
              | '"' :: ']' :: rest => some ((key, v), rest)
              | _ => none
          | _ => none
        else none
      | [] => none
  | _ => none

/-- Worker for `findTags`. -/
def findTagsAux : Nat → Str → List (Str × Str)
  | 0, _ => []
  | _ + 1, [] => []
  | fuel + 1, c :: rest =>
    match matchTag (c :: rest) with
    | some (kv, after) => kv :: findTagsAux fuel after
    | none => findTagsAux fuel rest

/-- Embeds `re.findall` of the tag pattern: all non-overlapping matches, scanned
left to right, as (key, value) capture-group pairs. -/
def findTags (s : Str) : List (Str × Str) := findTagsAux (s.length + 1) s

/-- The largest index `k ≥ 1` of `b` holding a closing brace: this is where
the backtracking of the greedy second `\S+` of `{\S+ \S+}` stops (the
character right after the consumed run must be the literal closing brace). -/
def lastCloseIdx (b : Str) : Option Nat :=
  ((List.range b.length).filter
    (fun k => decide (1 ≤ k) && decide ((b.drop k).head? = some '}'))).getLast?

/-- A match of the chess.com clock pattern `{\S+ \S+}` (line 57) anchored at
the start of `s`: returns the rest of the string after the match. -/
def matchClock (s : Str) : Option Str :=
  match s with
  | '{' :: r1 =>
    let a := r1.takeWhile (fun c => !(isPySpace c))
    if a = [] then none
    else
      match r1.drop a.length with
      | ' ' :: r2 =>
        let b := r2.takeWhile (fun c => !(isPySpace c))
        match lastCloseIdx b with
        | some k => some (r2.drop (k + 1))
        | none => none
      | _ => none
  | _ => none

/-- A match of the ellipsis pattern `\s\d+\.\.\.\s` (line 58) anchored at
the start of `s`: returns the rest of the string after the match. -/
def matchEllipsis (s : Str) : Option Str :=
  match s with
  | c :: r1 =>
    if isPySpace c then
      let ds := r1.takeWhile Char.isDigit
      if ds = [] then none
      else
        match r1.drop ds.length with
        | '.' :: '.' :: '.' :: c2 :: rest =>
          if isPySpace c2 then some rest else none
        | _ => none
    else none
  | [] => none

/-- A match of the lichess comment pattern `{[^{}]+}` (lines 285 and 344)
anchored at the start of `s`: returns the capture group (the text between
the braces) and the rest of the string after the match. -/
def matchBraceGroup (s : Str) : Option (Str × Str) :=
  match s with
  | '{' :: rest =>
    let inner := rest.takeWhile (fun c => c ≠ '{' && c ≠ '}')
    if inner = [] then none
    else
      match rest.drop inner.length with
      | '}' :: after => some (inner, after)
      | _ => none
  | _ => none

/-- Generic `re.sub(pattern, "", s)` scanner: `m` matches the pattern at the
start of its argument (consuming at least one character) and returns the
rest; unmatched characters are kept, matched spans are deleted. -/
def reSubDelAux (m : Str → Option Str) : Nat → Str → Str
  | 0, s => s
  | _ + 1, [] => []
  | fuel + 1, c :: rest =>
    match m (c :: rest) with
    | some after => reSubDelAux m fuel after
    | none => c :: reSubDelAux m fuel rest

/-- Embeds `re.sub(r"{\S+ \S+}", "", s)` (line 57). -/
def reSubClock (s : Str) : Str := reSubDelAux matchClock (s.length + 1) s

/-- Embeds `re.sub(r"\s\d+\.\.\.\s", "", s)` (line 58). -/
def reSubEllipsis (s : Str) : Str := reSubDelAux matchEllipsis (s.length + 1) s

/-- Embeds `re.sub(r"{[^{}]+}", "", s)` (line 285). -/
def reSubBraces (s : Str) : Str :=
  reSubDelAux (fun s => (matchBraceGroup s).map (fun p => p.2)) (s.length + 1) s

/-- Worker for `findBraceGroups`. -/
def findBraceGroupsAux : Nat → Str → List Str
  | 0, _ => []
  | _ + 1, [] => []
  | fuel + 1, c :: rest =>
    match matchBraceGroup (c :: rest) with
    | some (inner, after) => inner :: findBraceGroupsAux fuel after
    | none => findBraceGroupsAux fuel rest

/-- Embeds `re.findall(r"{([^{}]+)}", s)` (lines 344-346): the capture groups of
all non-overlapping matches, left to right. -/
def findBraceGroups (s : Str) : List Str := findBraceGroupsAux (s.length + 1) s

/-- A match of the move-number pattern `\d+\.` (lines 127, 286, 338)
anchored at the start of `s`: returns the matched text and the rest. -/
def matchNumDot (s : Str) : Option (Str × Str) :=
  let ds := s.takeWhile Char.isDigit
  if ds = [] then none
  else
    match s.drop ds.length with
    | '.' :: rest => some (ds ++ ['.'], rest)
    | _ => none

/-- Worker for `reSplitNumDot`; `acc` is the current segment, reversed. -/
def reSplitNumDotAux : Nat → Str → Str → List Str
  | 0, acc, s => [acc.reverse ++ s]
  | fuel + 1, acc, s =>
    match s with
    | [] => [acc.reverse]
    | c :: rest =>
      match matchNumDot (c :: rest) with
      | some p => acc.reverse :: reSplitNumDotAux fuel [] p.2
      | none => reSplitNumDotAux fuel (c :: acc) rest

/-- Embeds `re.split(r"\d+\.", s)` (lines 127 and 338): the segments between
non-overlapping matches, empty segments included. -/
def reSplitNumDot (s : Str) : List Str := reSplitNumDotAux (s.length + 1) [] s

/-- Worker for `reSubNumDotSpace`. -/
def reSubNumDotSpaceAux : Nat → Str → Str
  | 0, s => s
  | _ + 1, [] => []
  | fuel + 1, c :: rest =>
    match matchNumDot (c :: rest) with
    | some (m, after) => ' ' :: (m ++ reSubNumDotSpaceAux fuel after)
    | none => c :: reSubNumDotSpaceAux fuel rest

/-- Embeds `re.sub(r"\d+\.", r" \g<0>", s)` (line 286): insert a space before
every move-number token. -/
def reSubNumDotSpace (s : Str) : Str := reSubNumDotSpaceAux (s.length + 1) s

/-- Lines 127-128 and 338-339: the number of segments of the move text,
split on move-number tokens, that are non-empty after stripping. -/
def nmovesOf (mv : Str) : Nat :=
  ((reSplitNumDot mv).filter (fun seg => !(pyStrip seg).isEmpty)).length

/-- Embeds `re.search(r".+/(\d+)", link)` (line 74): group 1 of the match, i.e.
the maximal digit run after the rightmost slash that is preceded by at
least one character and followed by a digit; `none` when there is no match
(in which case the source's `[1]` raises a `TypeError`).  Links never
contain newline characters, so the "dot does not match newline" subtlety of
`.+` is not modelled. -/
def gameIdSearch (s : Str) : Option Str :=
  (((List.range s.length).filter (fun i =>
      decide (1 ≤ i) && decide ((s.drop i).head? = some '/') &&
        (match (s.drop (i + 1)).head? with
         | some c => c.isDigit
         | none => false))).getLast?).map
    (fun i => (s.drop (i + 1)).takeWhile Char.isDigit)

/-- Embeds `ChesscomParser.extract_pgn_tags` (lines 43-59), for one game of
`pgn_list`: findall the tag pattern, build the dict with lower-cased keys,
then slice the move text at `find("\n\n") + 2`, strip it, and remove clock
annotations and black-move ellipsis markers. -/
def chesscom_extract_pgn_tags (game : Str) : TagMap :=
  let tags := (findTags game).foldl
    (fun m kv => setTag m (lowerStr kv.1) (TagValue.str kv.2)) []
  let moves0 := pyStrip (game.drop ((pyFind (lit "\n\n") game) + 2).toNat)
  setTag tags (lit "moves") (TagValue.str (reSubEllipsis (reSubClock moves0)))

/-- The `match ending:` statement of lines 87-101: the classification of the
last two words of the termination sentence; `none` when no case matches (in
which case the source leaves `game["ending"]` unset). -/
def chesscomEndingCase (ending : Str) : Option Str :=
  if ending = lit "by checkmate" then some (lit "checkmate")
  else if ending = lit "by resignation" then some (lit "resignation")
  else if ending = lit "on time" then some (lit "time")
  else if ending = lit "by repetition" then some (lit "draw")
  else if ending = lit "by stalemate" then some (lit "stalemate")
  else if ending = lit "insufficient material" then some (lit "draw")
  else if ending = lit "game abandoned" then some (lit "abandoned")
  else none

/-- Lines 68-71 and (identically) lines 278-280: set `localdate` and
`localtime` from `utcdate`/`utctime` via `convert_utc_to_local`.  The
time-zone conversion depends on the host's local zone database, so it is
taken as a parameter `tz`; `tz` returning `none` models a parse failure in
`strptime`. -/
def step_local (tz : Str → Str → Option (Str × Str)) (g : TagMap) :
    Option TagMap :=
  match getTag g (lit "utcdate"), getTag g (lit "utctime") with
  | some (.str ud), some (.str ut) =>
    (tz ud ut).map (fun p =>
      setTag (setTag g (lit "localdate") (TagValue.str p.1))
        (lit "localtime") (TagValue.str p.2))
  | _, _ => none

/-- Line 74: `game["game_id"] = re.search(r".+/(\d+)", game["link"])[1]`. -/
def chesscom_step_game_id (g : TagMap) : Option TagMap :=
  match getTag g (lit "link") with
  | some (.str lk) =>
    (gameIdSearch lk).map (fun gid => setTag g (lit "game_id") (TagValue.str gid))
  | _ => none

/-- The `if`/`elif`/`else` of lines 78-83: the result string from the first
word of the termination sentence and the (lazily read) `result` tag.  Note
that line 80 compares `game["result"]` (the PGN result tag), not the first
word of the termination sentence, against `"Game"`; `none` models the
`KeyError` when the `result` tag is absent and the `elif` is reached. -/
def chesscomResultOf (w0 : Str) (resultTag : Option TagValue) : Option Str :=
  if w0 = lit "seanyseand" then some (lit "win")
  else
    match resultTag with
    | some v =>
      some (if v = TagValue.str (lit "Game") then lit "draw" else lit "loss")
    | none => none

/-- Lines 76-101: result classification from the termination sentence and
the `result` tag, then the ending classification of the last two words.
`split_termination[0]` raises an `IndexError` on an all-whitespace
termination sentence. -/
def chesscom_step_result_ending (g : TagMap) : Option TagMap :=
  match getTag g (lit "termination") with
  | some (.str term) =>
    let splitT := pyWords term
    match splitT.head? with
    | some w0 =>
      (chesscomResultOf w0 (getTag g (lit "result"))).map (fun r =>
        let g1 := setTag g (lit "result") (TagValue.str r)
        match chesscomEndingCase (joinWords (lastTwoOf splitT)) with
        | some e => setTag g1 (lit "ending") (TagValue.str e)
        | none => g1)
    | none => none
  | _ => none

/-- Lines 103-107: `elodiff` as a signed difference of the integer values of
the two elo tags, relative to the configured identity. -/
def chesscom_step_elodiff (g : TagMap) : Option TagMap :=
  match getTag g (lit "white") with
  | some wv =>
    match getTag g (lit "whiteelo"), getTag g (lit "blackelo") with
    | some (.str we), some (.str be) =>
      match pyIntStr we, pyIntStr be with
      | some w, some b =>
        some (setTag g (lit "elodiff")
          (TagValue.int (if wv = TagValue.str (lit "seanyseand") then w - b
                         else b - w)))
      | _, _ => none
    | _, _ => none
  | none => none

/-- Lines 109-124: time-control classification.  The `if "+" ...` at line
121 is *outside* the `else` branch, so it runs for daily games as well and
overwrites the `"n/a"` increment set at line 112. -/
def chesscom_step_timecontrol (g : TagMap) : Option TagMap :=
  match getTag g (lit "timecontrol") with
  | some (.str tc) =>
    (if containsSub (lit "/") tc then
       some (setTag (setTag g (lit "timecategory") (TagValue.str (lit "daily")))
         (lit "increment") (TagValue.str (lit "n/a")))
     else
       match pyIntStr ((pySplit (lit "+") tc).headD []) with
       | some t =>
         some (setTag g (lit "timecategory")
           (TagValue.str (if t ≥ 600 then lit "rapid"
                          else if 60 < t ∧ t < 600 then lit "blitz"
                          else lit "bullet")))
       | none => none).map (fun g1 =>
      setTag g1 (lit "increment")
        (TagValue.str (if containsSub (lit "+") tc then lit "yes" else lit "no")))
  | _ => none

/-- Lines 126-128 and 337-339 (the same three lines of code appear in both
parsers): `nmoves` is the number of non-blank segments of the move text
split on move-number tokens. -/
def step_nmoves (g : TagMap) : Option TagMap :=
  match getTag g (lit "moves") with
  | some (.str mv) =>
    some (setTag g (lit "nmoves") (TagValue.int (nmovesOf mv)))
  | _ => none

/-- Lines 130-131: lower-case the `site` tag. -/
def chesscom_step_site (g : TagMap) : Option TagMap :=
  match getTag g (lit "site") with
  | some (.str s) =>
    some (setTag g (lit "site") (TagValue.str (lowerStr s)))
  | _ => none

/-- Embeds `ChesscomParser.generate_supplemental_tags` (lines 62-133), for one tag
mapping of `pgn_tags`: the derivation steps in source order.  `none` means
the Python code raises on this mapping. -/
def chesscom_generate_supplemental_tags (tz : Str → Str → Option (Str × Str))
    (g : TagMap) : Option TagMap :=
  ((((((step_local tz g).bind
      chesscom_step_game_id).bind
      chesscom_step_result_ending).bind
      chesscom_step_elodiff).bind
      chesscom_step_timecontrol).bind
      step_nmoves).bind
      chesscom_step_site

/-- Line 146 (and line 162): `pgns.split("\n\n\n")`, the raw blob split of
`fetch_current_month_pgns` / `fetch_specific_month_pgns`. -/
def chesscom_fetch_pgn_list (pgns : Str) : List Str :=
  pySplit (lit "\n\n\n") pgns

/-- Line 190: `pgn_accumulator.rstrip("\n\n\n").split("\n\n\n")`, the raw
blob split of `fetch_month_range_pgns`. -/
def chesscom_fetch_month_range_pgn_list (acc : Str) : List Str :=
  pySplit (lit "\n\n\n") (pyRstripNewlines acc)

/-- Embeds `LichessParser.extract_pgn_tags_from_json` (lines 263-272): same tag
extraction; the move text is sliced at `find("\n\n") + 2` and stripped, with
no further rewriting at this stage. -/
def lichess_extract_pgn_tags_from_json (json_pgn : Str) : TagMap :=
  let tags := (findTags json_pgn).foldl
    (fun m kv => setTag m (lowerStr kv.1) (TagValue.str kv.2)) []
  setTag tags (lit "moves")
    (TagValue.str (pyStrip (json_pgn.drop ((pyFind (lit "\n\n") json_pgn) + 2).toNat)))

/-- Embeds `LichessParser.extract_ending_from_pgn` (lines 343-360): classify the
last `{...}` annotation by substring tests.  Note that line 359 tests
`("Draw" or "draw") in ending`, and the Python expression
`("Draw" or "draw")` evaluates to `"Draw"`, so only the capitalized
substring is actually tested.  Falling through every branch returns `None`. -/
def lichess_extract_ending_from_pgn (moves : Str) : Option Str :=
  match (findBraceGroups moves).getLast? with
  | none => none
  | some ending =>
    if containsSub (lit "resigns") ending then some (lit "resignation")
    else if containsSub (lit "checkmate") ending then some (lit "checkmate")
    else if containsSub (lit "left") ending then some (lit "abandoned")
    else if containsSub (lit "on time") ending then some (lit "time")
    else if containsSub (lit "stalemate") ending then some (lit "stalemate")
    else if containsSub (lit "Draw") ending then some (lit "draw")
    else none

/-- One structured record of `json_list` (source B): the fields of the
line-delimited JSON record that `convert_json_list_to_pgn_list` reads.
`winner` is `none` when the `"winner"` key is absent (a draw). -/
structure LichessGame where
  pgn : Str
  id : Str
  lastFen : Str
  winner : Option Str

/-- Lines 284-286: set `ending` from the raw move text (Python stores
`None` when unclassifiable), then rewrite `moves` by removing `{...}`
comments and space-padding move-number tokens, and strip. -/
def lichess_step_ending_moves (g : TagMap) : Option TagMap :=
  match getTag g (lit "moves") with
  | some (.str mv) =>
    let g := setTag g (lit "ending")
      (match lichess_extract_ending_from_pgn mv with
       | some e => TagValue.str e
       | none => TagValue.null)
    some (setTag g (lit "moves")
      (TagValue.str (pyStrip (reSubNumDotSpace (reSubBraces mv)))))
  | _ => none

/-- Lines 288-301: result from the `winner` JSON field and the identity;
when `winner` holds a value other than `"white"`/`"black"` the match falls
through and `result` is left unset. -/
def lichess_step_result (winner : Option Str) (g : TagMap) : Option TagMap :=
  match winner with
  | some w =>
    if w = lit "white" then
      match getTag g (lit "white") with
      | some wv =>
        some (setTag g (lit "result")
          (TagValue.str (if wv = TagValue.str (lit "seanyseand") then lit "win"
                         else lit "loss")))
      | none => none
    else if w = lit "black" then
      match getTag g (lit "black") with
      | some bv =>
        some (setTag g (lit "result")
          (TagValue.str (if bv = TagValue.str (lit "seanyseand") then lit "win"
                         else lit "loss")))
      | none => none
    else some g
  | none => some (setTag g (lit "result") (TagValue.str (lit "draw")))

/-- Lines 306-315: `elodiff` is the raw value of the side's rating-diff tag
when present (a try/except around the dict lookup), else `None`. -/
def lichess_step_elodiff (g : TagMap) : Option TagMap :=
  match getTag g (lit "white") with
  | some wv =>
    if wv = TagValue.str (lit "seanyseand") then
      some (setTag g (lit "elodiff")
        ((getTag g (lit "whiteratingdiff")).getD TagValue.null))
    else
      some (setTag g (lit "elodiff")
        ((getTag g (lit "blackratingdiff")).getD TagValue.null))
  | none => none

/-- Lines 317-335: time-control classification for source B.  A specifier
other than `"-"` is split on `"+"`; both the base and the increment are
parsed as ints (`time_split[1]` raises an `IndexError` when there is no
`"+"`), and the increment flag is set inside the same `else` branch. -/
def lichess_step_timecontrol (g : TagMap) : Option TagMap :=
  match getTag g (lit "timecontrol") with
  | some (.str tc) =>
    if tc = lit "-" then
      some (setTag (setTag g (lit "timecategory") (TagValue.str (lit "daily")))
        (lit "increment") (TagValue.str (lit "n/a")))
    else
      match pyIntStr ((pySplit (lit "+") tc).headD []) with
      | some t =>
        match ((pySplit (lit "+") tc).drop 1).head? with
        | some incs =>
          match pyIntStr incs with
          | some inc =>
            some (setTag
              (setTag g (lit "timecategory")
                (TagValue.str (if t ≥ 600 then lit "rapid"
                               else if 60 < t ∧ t < 600 then lit "blitz"
                               else lit "bullet")))
              (lit "increment")
              (TagValue.str (if inc = 0 then lit "no" else lit "yes")))
          | none => none
        | none => none
      | none => none
  | _ => none

/-- The body of the `for` loop of `convert_json_list_to_pgn_list` (lines
275-339) for one JSON record: returns the fully derived tag mapping and the
`keep` flag of the `if tags["ending"]:` append at lines 303-304 (the dict
is appended by reference, so the record in `pgn_tags` is the fully mutated
one).  `none` means the Python code raises on this record. -/
def lichess_convert_json_game (tz : Str → Str → Option (Str × Str))
    (j : LichessGame) : Option (TagMap × Bool) :=
  let tags0 := lichess_extract_pgn_tags_from_json j.pgn
  (step_local tz tags0).bind (fun t1 =>
    let t2 := setTag (setTag t1 (lit "game_id") (TagValue.str j.id))
      (lit "currentposition") (TagValue.str j.lastFen)
    (lichess_step_ending_moves t2).bind (fun t3 =>
      (lichess_step_result j.winner t3).bind (fun t4 =>
        (getTag t4 (lit "ending")).bind (fun ev =>
          let keep := truthy ev
          (lichess_step_elodiff t4).bind (fun t5 =>
            (lichess_step_timecontrol t5).bind (fun t6 =>
              (step_nmoves t6).map (fun t7 => (t7, keep))))))))

/-- Embeds `LichessParser.convert_json_list_to_pgn_list` (lines 274-341): process
the records in order, appending to `pgn_tags` exactly those whose `ending`
value is truthy.  `none` means some record raised (aborting the loop). -/
def lichess_convert_json_list_to_pgn_list (tz : Str → Str → Option (Str × Str)) :
    List LichessGame → Option (List TagMap)
  | [] => some []
  | j :: rest =>
    (lichess_convert_json_game tz j).bind (fun p =>
      (lichess_convert_json_list_to_pgn_list tz rest).map (fun out =>
        if p.2 then p.1 :: out else out))

/-- The derived cell holds an integer. -/
def isIntCell : Option TagValue → Prop
  | some (.int _) => True
  | _ => False

/-- The derived cell holds a string or `None`. -/
def isStrOrNullCell : Option TagValue → Prop
  | some (.str _) => True
  | some .null => True
  | _ => False

/-- The identity time-zone conversion, used to instantiate the abstract
`tz` parameter of the engines on concrete inputs. -/
def tzId : Str → Str → Option (Str × Str) := fun d t => some (d, t)

/-- Build a tag mapping of string values from string literals. -/
def mkMap (l : List (String × String)) : TagMap :=
  l.foldl (fun m kv => setTag m (lit kv.1) (TagValue.str (lit kv.2))) []

/-- A concrete source-A tag mapping: a rapid game won by checkmate. -/
def cmapWin : TagMap := mkMap [
  ("utcdate", "2023.06.15"), ("utctime", "18:00:00"),
  ("link", "https://www.chess.com/game/live/123"),
  ("termination", "seanyseand won by checkmate"), ("result", "1-0"),
  ("white", "seanyseand"), ("whiteelo", "1500"), ("blackelo", "1400"),
  ("timecontrol", "600"), ("moves", "1. e4 e5 2. Nf3 Nc6"),
  ("site", "Chess.com")]

/-- A concrete source-A tag mapping: a daily/correspondence game, with the
time-control specifier `"1/86400"` that chess.com uses for daily games. -/
def cmapDaily : TagMap := mkMap [
  ("utcdate", "2023.06.15"), ("utctime", "18:00:00"),
  ("link", "https://www.chess.com/game/daily/123"),
  ("termination", "seanyseand won by resignation"), ("result", "1-0"),
  ("white", "seanyseand"), ("whiteelo", "1500"), ("blackelo", "1400"),
  ("timecontrol", "1/86400"), ("moves", "1. e4 e5"), ("site", "Chess.com")]

/-- A concrete source-A tag mapping: a drawn game, with the `result` tag
holding the PGN value `"1/2-1/2"` as chess.com emits it. -/
def cmapDrawHalf : TagMap := mkMap [
  ("utcdate", "2023.06.15"), ("utctime", "18:00:00"),
  ("link", "https://www.chess.com/game/live/9"),
  ("termination", "Game drawn by repetition"), ("result", "1/2-1/2"),
  ("white", "seanyseand"), ("whiteelo", "1500"), ("blackelo", "1400"),
  ("timecontrol", "60+1"), ("moves", "1. e4 e5"), ("site", "Chess.com")]

/-- The same drawn game as `cmapDrawHalf` except that the `result` tag
artificially holds `"Game"` — the only value line 80 classifies as a draw. -/
def cmapDrawGameTag : TagMap := mkMap [
  ("utcdate", "2023.06.15"), ("utctime", "18:00:00"),
  ("link", "https://www.chess.com/game/live/9"),
  ("termination", "Game drawn by repetition"), ("result", "Game"),
  ("white", "seanyseand"), ("whiteelo", "1500"), ("blackelo", "1400"),
  ("timecontrol", "60+1"), ("moves", "1. e4 e5"), ("site", "Chess.com")]

/-- A concrete source-A tag mapping whose termination phrase matches no
case of the `match ending:` statement. -/
def cmapUnclass : TagMap := mkMap [
  ("utcdate", "2023.06.15"), ("utctime", "18:00:00"),
  ("link", "https://www.chess.com/game/live/77"),
  ("termination", "seanyseand won by adjudication"), ("result", "1-0"),
  ("white", "seanyseand"), ("whiteelo", "1500"), ("blackelo", "1400"),
  ("timecontrol", "300"), ("moves", "1. e4 e5"), ("site", "Chess.com")]

/-- A concrete source-A tag mapping in which the identity plays black. -/
def cmapBlack : TagMap := mkMap [
  ("utcdate", "2023.06.15"), ("utctime", "18:00:00"),
  ("link", "https://www.chess.com/game/live/55"),
  ("termination", "opponent won by checkmate"), ("result", "1-0"),
  ("white", "opponent"), ("black", "seanyseand"),
  ("whiteelo", "1500"), ("blackelo", "1400"),
  ("timecontrol", "180"), ("moves", "1. e4 e5"), ("site", "Chess.com")]

/-- A concrete source-B annotated-game text: the identity plays white and
loses by resignation; a `WhiteRatingDiff` tag is present. -/
def lpgnB : Str := lit "[White \x22seanyseand\x22]\n[Black \x22opp\x22]\n[WhiteRatingDiff \x22+8\x22]\n[UTCDate \x222023.06.15\x22]\n[UTCTime \x2218:00:00\x22]\n[TimeControl \x22600+5\x22]\n\n1. e4 e5 \x7b White resigns. \x7d 0-1"

/-- The source-B structured record around `lpgnB`. -/
def lgameB : LichessGame :=
  ⟨lpgnB, lit "abcd1234", lit "somefen", some (lit "black")⟩

/-- A concrete source-B annotated-game text with no inline annotation at
all, so its ending is unclassifiable. -/
def lpgnNoEnd : Str := lit "[White \x22seanyseand\x22]\n[Black \x22opp\x22]\n[UTCDate \x222023.06.15\x22]\n[UTCTime \x2218:00:00\x22]\n[TimeControl \x2260+0\x22]\n\n1. e4 e5 1-0"

/-- The source-B structured record around `lpgnNoEnd`. -/
def lgameNoEnd : LichessGame :=
  ⟨lpgnNoEnd, lit "wxyz9876", lit "otherfen", some (lit "white")⟩

/-- A concrete source-B annotated-game text for a daily/correspondence
game: the time-control specifier is `"-"`. -/
def lpgnDaily : Str := lit "[White \x22seanyseand\x22]\n[Black \x22opp\x22]\n[UTCDate \x222023.06.15\x22]\n[UTCTime \x2218:00:00\x22]\n[TimeControl \x22-\x22]\n\n1. e4 e5 \x7b White resigns. \x7d 0-1"

/-- The source-B structured record around `lpgnDaily`. -/
def lgameDaily : LichessGame :=
  ⟨lpgnDaily, lit "daily007", lit "dailyfen", some (lit "black")⟩

/-- Look-up after update: the updated key reads the new value, every other
key is unchanged. -/
theorem getTag_setTag (m : TagMap) (k k' : Str) (v : TagValue) :
    getTag (setTag m k' v) k = if k' = k then some v else getTag m k := by
  induction m with
  | nil => simp [setTag, getTag]
  | cons a rest ih =>
    obtain ⟨ak, av⟩ := a
    by_cases ha : ak = k'
    · subst ha
      by_cases hk : ak = k
      · simp [setTag, getTag, hk]
      · simp [setTag, getTag, hk]
    · by_cases hk : ak = k
      · subst hk
        have hne : ¬ k' = ak := fun hh => ha hh.symm
        simp [setTag, getTag, ha, hne]
      · simp [setTag, getTag, ha, hk, ih]

theorem getTag_setTag_self (m : TagMap) (k : Str) (v : TagValue) :
    getTag (setTag m k v) k = some v := by
  simp [getTag_setTag]

theorem getTag_setTag_ne (m : TagMap) (k k' : Str) (v : TagValue)
    (h : ¬ k' = k) : getTag (setTag m k' v) k = getTag m k := by
  simp [getTag_setTag, h]

/-- Destructuring of a successful run of the source-A derivation engine
into its per-paragraph steps. -/
theorem chesscom_chain (tz : Str → Str → Option (Str × Str)) (m g : TagMap)
    (h : chesscom_generate_supplemental_tags tz m = some g) :
    ∃ g1 g2 g3 g4 g5 g6,
      step_local tz m = some g1 ∧
      chesscom_step_game_id g1 = some g2 ∧
      chesscom_step_result_ending g2 = some g3 ∧
      chesscom_step_elodiff g3 = some g4 ∧
      chesscom_step_timecontrol g4 = some g5 ∧
      step_nmoves g5 = some g6 ∧
      chesscom_step_site g6 = some g := by
  unfold chesscom_generate_supplemental_tags at h
  rw [Option.bind_eq_some] at h
  obtain ⟨g6, h6, hs7⟩ := h
  rw [Option.bind_eq_some] at h6
  obtain ⟨g5, h5, hs6⟩ := h6
  rw [Option.bind_eq_some] at h5
  obtain ⟨g4, h4, hs5⟩ := h5
  rw [Option.bind_eq_some] at h4
  obtain ⟨g3, h3, hs4⟩ := h4
  rw [Option.bind_eq_some] at h3
  obtain ⟨g2, h2, hs3⟩ := h3
  rw [Option.bind_eq_some] at h2
  obtain ⟨g1, h1, hs2⟩ := h2
  exact ⟨g1, g2, g3, g4, g5, g6, h1, hs2, hs3, hs4, hs5, hs6, hs7⟩

/-- Destructuring of a successful run of the source-B per-record derivation
into its per-paragraph steps. -/
theorem lichess_chain (tz : Str → Str → Option (Str × Str)) (j : LichessGame)
    (g : TagMap) (keep : Bool)
    (h : lichess_convert_json_game tz j = some (g, keep)) :
    ∃ t1 t3 t4 ev t5 t6,
      step_local tz (lichess_extract_pgn_tags_from_json j.pgn) = some t1 ∧
      lichess_step_ending_moves
        (setTag (setTag t1 (lit "game_id") (TagValue.str j.id))
          (lit "currentposition") (TagValue.str j.lastFen)) = some t3 ∧
      lichess_step_result j.winner t3 = some t4 ∧
      getTag t4 (lit "ending") = some ev ∧
      keep = truthy ev ∧
      lichess_step_elodiff t4 = some t5 ∧
      lichess_step_timecontrol t5 = some t6 ∧
      step_nmoves t6 = some g := by
  unfold lichess_convert_json_game at h
  rw [Option.bind_eq_some] at h
  obtain ⟨t1, h1, h⟩ := h
  rw [Option.bind_eq_some] at h
  obtain ⟨t3, h3, h⟩ := h
  rw [Option.bind_eq_some] at h
  obtain ⟨t4, h4, h⟩ := h
  rw [Option.bind_eq_some] at h
  obtain ⟨ev, hev, h⟩ := h
  rw [Option.bind_eq_some] at h
  obtain ⟨t5, h5, h⟩ := h
  rw [Option.bind_eq_some] at h
  obtain ⟨t6, h6, h⟩ := h
  rw [Option.map_eq_some'] at h
  obtain ⟨t7, h7, hpair⟩ := h
  obtain ⟨rfl, rfl⟩ := Prod.mk.injEq .. ▸ hpair
  exact ⟨t1, t3, t4, ev, t5, t6, h1, h3, h4, hev, rfl, h5, h6, h7⟩

/-- Lemma: `step_local` writes only `localdate` and `localtime`. -/
theorem step_local_pres (tz : Str → Str → Option (Str × Str)) (g g' : TagMap)
    (k : Str) (h : step_local tz g = some g')
    (h1 : ¬ k = lit "localdate") (h2 : ¬ k = lit "localtime") :
    getTag g' k = getTag g k := by
  unfold step_local at h
  split at h
  case h_1 ud ut hud hut =>
    rw [Option.map_eq_some'] at h
    obtain ⟨p, _, rfl⟩ := h
    rw [getTag_setTag_ne _ _ _ _ (fun hh => h2 hh.symm),
      getTag_setTag_ne _ _ _ _ (fun hh => h1 hh.symm)]
  case h_2 => exact absurd h (by simp)

/-- Lemma: `chesscom_step_game_id` writes only `game_id`. -/
theorem chesscom_step_game_id_pres (g g' : TagMap) (k : Str)
    (h : chesscom_step_game_id g = some g') (h1 : ¬ k = lit "game_id") :
    getTag g' k = getTag g k := by
  unfold chesscom_step_game_id at h
  split at h
  case h_1 lk hlk =>
    rw [Option.map_eq_some'] at h
    obtain ⟨gid, _, rfl⟩ := h
    rw [getTag_setTag_ne _ _ _ _ (fun hh => h1 hh.symm)]
  case h_2 => exact absurd h (by simp)

/-- Lemma: `chesscom_step_result_ending` writes only `result` and `ending`. -/
theorem chesscom_step_result_ending_pres (g g' : TagMap) (k : Str)
    (h : chesscom_step_result_ending g = some g')
    (h1 : ¬ k = lit "result") (h2 : ¬ k = lit "ending") :
    getTag g' k = getTag g k := by
  unfold chesscom_step_result_ending at h
  split at h
  case h_2 => exact absurd h (by simp)
  case h_1 term hterm =>
    simp only [] at h
    split at h
    case h_2 => exact absurd h (by simp)
    case h_1 w0 hw0 =>
      rw [Option.map_eq_some'] at h
      obtain ⟨r, hr, rfl⟩ := h
      split
      case h_1 e he =>
        rw [getTag_setTag_ne _ _ _ _ (fun hh => h2 hh.symm),
          getTag_setTag_ne _ _ _ _ (fun hh => h1 hh.symm)]
      case h_2 =>
        rw [getTag_setTag_ne _ _ _ _ (fun hh => h1 hh.symm)]

/-- Lemma: `chesscom_step_elodiff` writes only `elodiff`. -/
theorem chesscom_step_elodiff_pres (g g' : TagMap) (k : Str)
    (h : chesscom_step_elodiff g = some g') (h1 : ¬ k = lit "elodiff") :
    getTag g' k = getTag g k := by
  unfold chesscom_step_elodiff at h
  split at h
  case h_2 => exact absurd h (by simp)
  case h_1 wv hwv =>
    split at h
    case h_2 => exact absurd h (by simp)
    case h_1 we be hwe hbe =>
      split at h
      case h_2 => exact absurd h (by simp)
      case h_1 w b hw hb =>
        obtain ⟨rfl⟩ := h
        rw [getTag_setTag_ne _ _ _ _ (fun hh => h1 hh.symm)]

/-- Lemma: `chesscom_step_timecontrol` writes only `timecategory` and `increment`. -/
theorem chesscom_step_timecontrol_pres (g g' : TagMap) (k : Str)
    (h : chesscom_step_timecontrol g = some g')
    (h1 : ¬ k = lit "timecategory") (h2 : ¬ k = lit "increment") :
    getTag g' k = getTag g k := by
  unfold chesscom_step_timecontrol at h
  split at h
  case h_2 => exact absurd h (by simp)
  case h_1 tc htc =>
    rw [Option.map_eq_some'] at h
    obtain ⟨gmid, hmid, rfl⟩ := h
    rw [getTag_setTag_ne _ _ _ _ (fun hh => h2 hh.symm)]
    split at hmid
    · obtain ⟨rfl⟩ := hmid
      rw [getTag_setTag_ne _ _ _ _ (fun hh => h2 hh.symm),
        getTag_setTag_ne _ _ _ _ (fun hh => h1 hh.symm)]
    · split at hmid
      case h_1 t ht =>
        obtain ⟨rfl⟩ := hmid
        rw [getTag_setTag_ne _ _ _ _ (fun hh => h1 hh.symm)]
      case h_2 => exact absurd hmid (by simp)

/-- Lemma: `step_nmoves` writes only `nmoves`. -/
theorem step_nmoves_pres (g g' : TagMap) (k : Str)
    (h : step_nmoves g = some g') (h1 : ¬ k = lit "nmoves") :
    getTag g' k = getTag g k := by
  unfold step_nmoves at h
  split at h
  case h_2 => exact absurd h (by simp)
  case h_1 mv hmv =>
    obtain ⟨rfl⟩ := h
    rw [getTag_setTag_ne _ _ _ _ (fun hh => h1 hh.symm)]

/-- Lemma: `chesscom_step_site` writes only `site`. -/
theorem chesscom_step_site_pres (g g' : TagMap) (k : Str)
    (h : chesscom_step_site g = some g') (h1 : ¬ k = lit "site") :
    getTag g' k = getTag g k := by
  unfold chesscom_step_site at h
  split at h
  case h_2 => exact absurd h (by simp)
  case h_1 s hs =>
    obtain ⟨rfl⟩ := h
    rw [getTag_setTag_ne _ _ _ _ (fun hh => h1 hh.symm)]

/-- Lemma: `lichess_step_ending_moves` writes only `ending` and `moves`. -/
theorem lichess_step_ending_moves_pres (g g' : TagMap) (k : Str)
    (h : lichess_step_ending_moves g = some g')
    (h1 : ¬ k = lit "ending") (h2 : ¬ k = lit "moves") :
    getTag g' k = getTag g k := by
  unfold lichess_step_ending_moves at h
  split at h
  case h_2 => exact absurd h (by simp)
  case h_1 mv hmv =>
    simp only [] at h
    obtain ⟨rfl⟩ := h
    rw [getTag_setTag_ne _ _ _ _ (fun hh => h2 hh.symm),
      getTag_setTag_ne _ _ _ _ (fun hh => h1 hh.symm)]

/-- Lemma: `lichess_step_result` writes only `result`. -/
theorem lichess_step_result_pres (w : Option Str) (g g' : TagMap) (k : Str)
    (h : lichess_step_result w g = some g') (h1 : ¬ k = lit "result") :
    getTag g' k = getTag g k := by
  unfold lichess_step_result at h
  split at h
  · split at h
    · split at h
      · obtain ⟨rfl⟩ := h
        rw [getTag_setTag_ne _ _ _ _ (fun hh => h1 hh.symm)]
      · exact absurd h (by simp)
    · split at h
      · split at h
        · obtain ⟨rfl⟩ := h
          rw [getTag_setTag_ne _ _ _ _ (fun hh => h1 hh.symm)]
        · exact absurd h (by simp)
      · obtain ⟨rfl⟩ := h
        rfl
  · obtain ⟨rfl⟩ := h
    rw [getTag_setTag_ne _ _ _ _ (fun hh => h1 hh.symm)]

/-- Lemma: `lichess_step_elodiff` writes only `elodiff`. -/
theorem lichess_step_elodiff_pres (g g' : TagMap) (k : Str)
    (h : lichess_step_elodiff g = some g') (h1 : ¬ k = lit "elodiff") :
    getTag g' k = getTag g k := by
  unfold lichess_step_elodiff at h
  split at h
  case h_2 => exact absurd h (by simp)
  case h_1 wv hwv =>
    split at h
    · obtain ⟨rfl⟩ := h
      rw [getTag_setTag_ne _ _ _ _ (fun hh => h1 hh.symm)]
    · obtain ⟨rfl⟩ := h
      rw [getTag_setTag_ne _ _ _ _ (fun hh => h1 hh.symm)]

/-- Lemma: `lichess_step_timecontrol` writes only `timecategory` and `increment`. -/
theorem lichess_step_timecontrol_pres (g g' : TagMap) (k : Str)
    (h : lichess_step_timecontrol g = some g')
    (h1 : ¬ k = lit "timecategory") (h2 : ¬ k = lit "increment") :
    getTag g' k = getTag g k := by
  unfold lichess_step_timecontrol at h
  split at h
  case h_2 => exact absurd h (by simp)
  case h_1 tc htc =>
    split at h
    · obtain ⟨rfl⟩ := h
      rw [getTag_setTag_ne _ _ _ _ (fun hh => h2 hh.symm),
        getTag_setTag_ne _ _ _ _ (fun hh => h1 hh.symm)]
    · split at h
      case h_2 => exact absurd h (by simp)
      case h_1 t ht =>
        split at h
        case h_2 => exact absurd h (by simp)
        case h_1 incs hincs =>
          split at h
          case h_2 => exact absurd h (by simp)
          case h_1 inc hinc =>
            obtain ⟨rfl⟩ := h
            rw [getTag_setTag_ne _ _ _ _ (fun hh => h2 hh.symm),
              getTag_setTag_ne _ _ _ _ (fun hh => h1 hh.symm)]

/-- What `chesscom_step_timecontrol` writes for a clocked (no `/`)
specifier that parses: the `timecategory` cell follows the threshold chain
of lines 115-120. -/
theorem chesscom_step_timecontrol_clocked (g g' : TagMap) (tc : Str) (t : Int)
    (h : chesscom_step_timecontrol g = some g')
    (htc : getTag g (lit "timecontrol") = some (TagValue.str tc))
    (hslash : containsSub (lit "/") tc = false)
    (ht : pyIntStr ((pySplit (lit "+") tc).headD []) = some t) :
    getTag g' (lit "timecategory") = some (TagValue.str
      (if t ≥ 600 then lit "rapid" else if 60 < t ∧ t < 600 then lit "blitz"
       else lit "bullet")) := by
  unfold chesscom_step_timecontrol at h
  split at h
  case h_2 hno => exact absurd h (by simp)
  case h_1 tc2 htc2 =>
    rw [htc] at htc2
    obtain rfl : tc = tc2 := TagValue.str.inj (Option.some.inj htc2)
    rw [Option.map_eq_some'] at h
    obtain ⟨gmid, hmid, rfl⟩ := h
    split at hmid
    case isTrue hc => rw [hslash] at hc; exact absurd hc (by simp)
    case isFalse hc =>
      rw [ht] at hmid
      obtain ⟨rfl⟩ := hmid
      rw [getTag_setTag_ne _ _ _ _ (by decide), getTag_setTag_self]

/-- What `lichess_step_timecontrol` writes for a non-`"-"` specifier whose
base and increment parse: the `timecategory` cell follows the threshold
chain of lines 325-330. -/
theorem lichess_step_timecontrol_clocked (g g' : TagMap) (tc incs : Str)
    (t inc : Int)
    (h : lichess_step_timecontrol g = some g')
    (htc : getTag g (lit "timecontrol") = some (TagValue.str tc))
    (hdash : ¬ tc = lit "-")
    (ht : pyIntStr ((pySplit (lit "+") tc).headD []) = some t)
    (hi : ((pySplit (lit "+") tc).drop 1).head? = some incs)
    (hinc : pyIntStr incs = some inc) :
    getTag g' (lit "timecategory") = some (TagValue.str
      (if t ≥ 600 then lit "rapid" else if 60 < t ∧ t < 600 then lit "blitz"
       else lit "bullet")) := by
  unfold lichess_step_timecontrol at h
  split at h
  case h_2 hno => exact absurd h (by simp)
  case h_1 tc2 htc2 =>
    rw [htc] at htc2
    obtain rfl : tc = tc2 := TagValue.str.inj (Option.some.inj htc2)
    rw [if_neg hdash, ht] at h
    simp only [] at h
    rw [hi] at h
    simp only [] at h
    rw [hinc] at h
    simp only [] at h
    obtain ⟨rfl⟩ := h
    rw [getTag_setTag_ne _ _ _ _ (by decide), getTag_setTag_self]

/-- What `chesscom_step_elodiff` writes: the signed elo difference of
lines 103-107. -/
theorem chesscom_step_elodiff_spec (g g' : TagMap) (wv : TagValue)
    (we be : Str) (w b : Int)
    (h : chesscom_step_elodiff g = some g')
    (hwv : getTag g (lit "white") = some wv)
    (hwe : getTag g (lit "whiteelo") = some (TagValue.str we))
    (hbe : getTag g (lit "blackelo") = some (TagValue.str be))
    (hw : pyIntStr we = some w) (hb : pyIntStr be = some b) :
    getTag g' (lit "elodiff") = some (TagValue.int
      (if wv = TagValue.str (lit "seanyseand") then w - b else b - w)) := by
  unfold chesscom_step_elodiff at h
  rw [hwv, hwe, hbe] at h
  simp only [] at h
  rw [hw, hb] at h
  simp only [] at h
  obtain ⟨rfl⟩ := h
  rw [getTag_setTag_self]

/-- What `step_nmoves` writes: the move count of the `moves` cell. -/
theorem step_nmoves_spec (g g' : TagMap) (mv : Str)
    (h : step_nmoves g = some g')
    (hmv : getTag g (lit "moves") = some (TagValue.str mv)) :
    getTag g' (lit "nmoves") = some (TagValue.int (nmovesOf mv)) := by
  unfold step_nmoves at h
  rw [hmv] at h
  obtain ⟨rfl⟩ := h
  rw [getTag_setTag_self]

/-- What `lichess_step_elodiff` writes: the raw looked-up value of one of
the two rating-diff cells, defaulting to `None`. -/
theorem lichess_step_elodiff_spec (g g' : TagMap)
    (h : lichess_step_elodiff g = some g') :
    getTag g' (lit "elodiff") =
      some ((getTag g (lit "whiteratingdiff")).getD TagValue.null) ∨
    getTag g' (lit "elodiff") =
      some ((getTag g (lit "blackratingdiff")).getD TagValue.null) := by
  unfold lichess_step_elodiff at h
  split at h
  case h_2 => exact absurd h (by simp)
  case h_1 wv hwv =>
    split at h
    · obtain ⟨rfl⟩ := h
      exact Or.inl (getTag_setTag_self _ _ _)
    · obtain ⟨rfl⟩ := h
      exact Or.inr (getTag_setTag_self _ _ _)

/-- What `chesscom_step_result_ending` does to the `ending` cell when the
phrase matches no case: nothing. -/
theorem chesscom_step_result_ending_no_ending (g g' : TagMap) (term : Str)
    (h : chesscom_step_result_ending g = some g')
    (hterm : getTag g (lit "termination") = some (TagValue.str term))
    (hcase : chesscomEndingCase (joinWords (lastTwoOf (pyWords term))) = none) :
    getTag g' (lit "ending") = getTag g (lit "ending") := by
  unfold chesscom_step_result_ending at h
  split at h
  case h_2 hno => exact absurd h (by simp)
  case h_1 term2 hterm2 =>
    rw [hterm] at hterm2
    obtain rfl : term = term2 := TagValue.str.inj (Option.some.inj hterm2)
    simp only [] at h
    split at h
    case h_2 => exact absurd h (by simp)
    case h_1 w0 hw0 =>
      rw [Option.map_eq_some'] at h
      obtain ⟨r, hr, rfl⟩ := h
      rw [hcase]
      rw [getTag_setTag_ne _ _ _ _ (by decide)]

/-- What `chesscom_step_result_ending` writes to the `result` cell: the
value of `chesscomResultOf` on the first word of the termination sentence
and the `result` tag. -/
theorem chesscom_step_result_ending_result (g g' : TagMap) (term w0 r : Str)
    (h : chesscom_step_result_ending g = some g')
    (hterm : getTag g (lit "termination") = some (TagValue.str term))
    (hw0 : (pyWords term).head? = some w0)
    (hr : chesscomResultOf w0 (getTag g (lit "result")) = some r) :
    getTag g' (lit "result") = some (TagValue.str r) := by
  unfold chesscom_step_result_ending at h
  split at h
  case h_2 hno => exact absurd h (by simp)
  case h_1 term2 hterm2 =>
    rw [hterm] at hterm2
    obtain rfl : term = term2 := TagValue.str.inj (Option.some.inj hterm2)
    simp only [] at h
    rw [hw0] at h
    simp only [] at h
    rw [hr] at h
    simp only [Option.map_some'] at h
    obtain ⟨rfl⟩ := h
    split
    case h_1 e he =>
      rw [getTag_setTag_ne _ _ _ _ (by decide), getTag_setTag_self]
    case h_2 => rw [getTag_setTag_self]

/-- What `lichess_step_ending_moves` writes to the `ending` cell: the
classification of the raw move text, with `None` for unclassifiable. -/
theorem lichess_step_ending_moves_spec (g g' : TagMap) (mv : Str)
    (h : lichess_step_ending_moves g = some g')
    (hmv : getTag g (lit "moves") = some (TagValue.str mv)) :
    getTag g' (lit "ending") =
      some (match lichess_extract_ending_from_pgn mv with
            | some e => TagValue.str e
            | none => TagValue.null) := by
  unfold lichess_step_ending_moves at h
  split at h
  case h_2 hno => exact absurd h (by simp)
  case h_1 mv2 hmv2 =>
    rw [hmv] at hmv2
    obtain rfl : mv = mv2 := TagValue.str.inj (Option.some.inj hmv2)
    simp only [] at h
    obtain ⟨rfl⟩ := h
    rw [getTag_setTag_ne _ _ _ _ (by decide), getTag_setTag_self]

/-- The classifications returned by `extract_ending_from_pgn` are non-empty
strings. -/
theorem lichess_ending_ne_nil (mv e : Str)
    (h : lichess_extract_ending_from_pgn mv = some e) : ¬ e = [] := by
  unfold lichess_extract_ending_from_pgn at h
  split at h
  · exact absurd h (by simp)
  · split at h
    · obtain ⟨rfl⟩ := h
      decide
    · split at h
      · obtain ⟨rfl⟩ := h
        decide
      · split at h
        · obtain ⟨rfl⟩ := h
          decide
        · split at h
          · obtain ⟨rfl⟩ := h
            decide
          · split at h
            · obtain ⟨rfl⟩ := h
              decide
            · split at h
              · obtain ⟨rfl⟩ := h
                decide
              · exact absurd h (by simp)

/-- The `moves` cell of the source-B tag extraction: the text after the
first blank line, stripped. -/
theorem lichess_extract_moves (p : Str) :
    getTag (lichess_extract_pgn_tags_from_json p) (lit "moves") =
      some (TagValue.str (pyStrip (p.drop ((pyFind (lit "\n\n") p) + 2).toNat))) := by
  unfold lichess_extract_pgn_tags_from_json
  exact getTag_setTag_self _ _ _

/-- The `moves` cell of the source-A tag extraction: the text after the
first blank line, stripped, with clock annotations and ellipsis markers
removed. -/
theorem chesscom_extract_moves (p : Str) :
    getTag (chesscom_extract_pgn_tags p) (lit "moves") =
      some (TagValue.str (reSubEllipsis (reSubClock
        (pyStrip (p.drop ((pyFind (lit "\n\n") p) + 2).toNat))))) := by
  unfold chesscom_extract_pgn_tags
  exact getTag_setTag_self _ _ _

/-- C1: the claim states that a daily/correspondence time-control specifier
yields `timecategory = "daily"` and `increment = "n/a"` in both sources.
Evaluating the source-A derivation on `cmapDaily` (specifier `"1/86400"`)
gives `timecategory = "daily"` but `increment = "no"`: the `if "+" ...` of
line 121 runs outside the `else` of line 113 and unconditionally overwrites
the `"n/a"` written at line 112 (a dead assignment).  The source-B branch
(specifier `"-"`, record `lgameDaily`) does produce `"n/a"` as claimed. -/
theorem c1_chesscom_daily_increment_overwritten :
    (chesscom_generate_supplemental_tags tzId cmapDaily).bind
      (fun g => getTag g (lit "timecategory")) = some (TagValue.str (lit "daily")) ∧
    (chesscom_generate_supplemental_tags tzId cmapDaily).bind
      (fun g => getTag g (lit "increment")) = some (TagValue.str (lit "no")) ∧
    (lichess_convert_json_game tzId lgameDaily).bind
      (fun p => getTag p.1 (lit "timecategory")) = some (TagValue.str (lit "daily")) ∧
    (lichess_convert_json_game tzId lgameDaily).bind
      (fun p => getTag p.1 (lit "increment")) = some (TagValue.str (lit "n/a")) := by
  decide

/-- C2: the claim states that a generic "Game drawn by ..." termination
sentence yields `result = "draw"` and that the classification depends only
on the termination sentence and the identity.  Line 80 in fact compares the
`result` *tag* against `"Game"`: on `cmapDrawHalf` (termination
`"Game drawn by repetition"`, result tag `"1/2-1/2"` as chess.com emits)
the derivation yields `result = "loss"`; on `cmapDrawGameTag` (identical
termination and identity, result tag `"Game"`) it yields `"draw"` — so
drawn games are classified as losses and the outcome also depends on the
`result` tag.  The identity-subject case (`cmapWin`) does yield `"win"`. -/
theorem c2_chesscom_result_reads_result_tag :
    (chesscom_generate_supplemental_tags tzId cmapWin).bind
      (fun g => getTag g (lit "result")) = some (TagValue.str (lit "win")) ∧
    (chesscom_generate_supplemental_tags tzId cmapDrawHalf).bind
      (fun g => getTag g (lit "result")) = some (TagValue.str (lit "loss")) ∧
    (chesscom_generate_supplemental_tags tzId cmapDrawGameTag).bind
      (fun g => getTag g (lit "result")) = some (TagValue.str (lit "draw")) := by
  decide

/-- C3: the claim states that a last annotation containing the word "draw"
in any letter case (with no higher-priority substring) classifies as
`"draw"`.  The Python expression `("Draw" or "draw")` at line 359 evaluates
to `"Draw"` alone, so the all-lower-case `"...drawn..."` annotation falls
through every branch and returns `None`; only a capitalized `"Draw"` is
recognized.  The priority part of the claim does hold: an annotation
containing `"stalemate"` classifies as `"stalemate"`, not `"draw"`. -/
theorem c3_lichess_draw_match_case_sensitive :
    lichess_extract_ending_from_pgn
      (lit "1. e4 e5 \x7bGame drawn by agreement\x7d") = none ∧
    lichess_extract_ending_from_pgn
      (lit "1. e4 e5 \x7bDraw agreed\x7d") = some (lit "draw") ∧
    lichess_extract_ending_from_pgn
      (lit "1. e4 e5 \x7bGame drawn by stalemate\x7d") = some (lit "stalemate") := by
  decide

/-- C4 counterexample: the claim states that the blob
`"gameA\n\n\ngameB\n\n\n"` splits into exactly `[gameA, gameB]` (no
trailing empty unit) and that an empty blob yields an empty sequence.  The
plain `split("\n\n\n")` of lines 146/162 keeps the trailing empty unit, and
an empty blob yields `[""]` on both splitting paths. -/
theorem c4_split_keeps_empty_units :
    chesscom_fetch_pgn_list (lit "gameA\n\n\ngameB\n\n\n") ≠
      [lit "gameA", lit "gameB"] ∧
    chesscom_fetch_pgn_list (lit "") ≠ ([] : List Str) ∧
    chesscom_fetch_month_range_pgn_list (lit "") ≠ ([] : List Str) := by
  decide

/-- C4 amended: splitting keeps empty units.  The current-month and
specific-month paths split the blob `"gameA\n\n\ngameB\n\n\n"` into
`[gameA, gameB, ""]` (trailing empty unit included); the month-range path
strips trailing newline characters first and yields exactly
`[gameA, gameB]` in original order; an empty blob yields the one-element
sequence `[""]` on both paths. -/
theorem c4_split_behavior :
    chesscom_fetch_pgn_list (lit "gameA\n\n\ngameB\n\n\n") =
      [lit "gameA", lit "gameB", lit ""] ∧
    chesscom_fetch_month_range_pgn_list (lit "gameA\n\n\ngameB\n\n\n") =
      [lit "gameA", lit "gameB"] ∧
    chesscom_fetch_pgn_list (lit "") = [([] : Str)] ∧
    chesscom_fetch_month_range_pgn_list (lit "") = [([] : Str)] := by
  decide

/-- C5: for every clocked (non-daily) time-control specifier whose base
seconds parse to `b`, both derivation engines classify `timecategory` as
`"rapid"` when `b ≥ 600`, `"blitz"` when `60 < b < 600`, and `"bullet"`
when `b ≤ 60` (so 60 is bullet, 61 and 599 are blitz, 600 is rapid). -/
theorem c5_timecategory_thresholds :
    (∀ (tz : Str → Str → Option (Str × Str)) (m g : TagMap) (tc : Str) (b : Int),
      chesscom_generate_supplemental_tags tz m = some g →
      getTag m (lit "timecontrol") = some (TagValue.str tc) →
      containsSub (lit "/") tc = false →
      pyIntStr ((pySplit (lit "+") tc).headD []) = some b →
      (b ≥ 600 → getTag g (lit "timecategory") = some (TagValue.str (lit "rapid"))) ∧
      (60 < b ∧ b < 600 →
        getTag g (lit "timecategory") = some (TagValue.str (lit "blitz"))) ∧
      (b ≤ 60 → getTag g (lit "timecategory") = some (TagValue.str (lit "bullet")))) ∧
    (∀ (tz : Str → Str → Option (Str × Str)) (j : LichessGame) (g : TagMap)
        (keep : Bool) (tc incs : Str) (b inc : Int),
      lichess_convert_json_game tz j = some (g, keep) →
      getTag (lichess_extract_pgn_tags_from_json j.pgn) (lit "timecontrol") =
        some (TagValue.str tc) →
      ¬ tc = lit "-" →
      pyIntStr ((pySplit (lit "+") tc).headD []) = some b →
      ((pySplit (lit "+") tc).drop 1).head? = some incs →
      pyIntStr incs = some inc →
      (b ≥ 600 → getTag g (lit "timecategory") = some (TagValue.str (lit "rapid"))) ∧
      (60 < b ∧ b < 600 →
        getTag g (lit "timecategory") = some (TagValue.str (lit "blitz"))) ∧
      (b ≤ 60 → getTag g (lit "timecategory") = some (TagValue.str (lit "bullet")))) := by
  constructor
  · intro tz m g tc b hder htc hslash hb
    obtain ⟨g1, g2, g3, g4, g5, g6, h1, h2, h3, h4, h5, h6, h7⟩ :=
      chesscom_chain tz m g hder
    have htc4 : getTag g4 (lit "timecontrol") = some (TagValue.str tc) := by
      rw [chesscom_step_elodiff_pres g3 g4 _ h4 (by decide),
        chesscom_step_result_ending_pres g2 g3 _ h3 (by decide) (by decide),
        chesscom_step_game_id_pres g1 g2 _ h2 (by decide),
        step_local_pres tz m g1 _ h1 (by decide) (by decide), htc]
    have hcat : getTag g (lit "timecategory") = some (TagValue.str
        (if b ≥ 600 then lit "rapid" else if 60 < b ∧ b < 600 then lit "blitz"
         else lit "bullet")) := by
      rw [chesscom_step_site_pres g6 g _ h7 (by decide),
        step_nmoves_pres g5 g6 _ h6 (by decide)]
      exact chesscom_step_timecontrol_clocked g4 g5 tc b h5 htc4 hslash hb
    refine ⟨fun hge => ?_, fun hmid => ?_, fun hle => ?_⟩
    · rw [hcat, if_pos hge]
    · rw [hcat, if_neg (by omega : ¬ b ≥ 600), if_pos hmid]
    · rw [hcat, if_neg (by omega : ¬ b ≥ 600),
        if_neg (by omega : ¬ (60 < b ∧ b < 600))]
  · intro tz j g keep tc incs b inc hder htc hdash hb hi hinc
    obtain ⟨t1, t3, t4, ev, t5, t6, h1, h3, h4, hev, hkeep, h5, h6, h7⟩ :=
      lichess_chain tz j g keep hder
    have htc5 : getTag t5 (lit "timecontrol") = some (TagValue.str tc) := by
      rw [lichess_step_elodiff_pres t4 t5 _ h5 (by decide),
        lichess_step_result_pres j.winner t3 t4 _ h4 (by decide),
        lichess_step_ending_moves_pres _ t3 _ h3 (by decide) (by decide),
        getTag_setTag_ne _ _ _ _ (by decide), getTag_setTag_ne _ _ _ _ (by decide),
        step_local_pres tz _ t1 _ h1 (by decide) (by decide), htc]
    have hcat : getTag g (lit "timecategory") = some (TagValue.str
        (if b ≥ 600 then lit "rapid" else if 60 < b ∧ b < 600 then lit "blitz"
         else lit "bullet")) := by
      rw [step_nmoves_pres t6 g _ h7 (by decide)]
      exact lichess_step_timecontrol_clocked t5 t6 tc incs b inc h6 htc5 hdash hb hi hinc
    refine ⟨fun hge => ?_, fun hmid => ?_, fun hle => ?_⟩
    · rw [hcat, if_pos hge]
    · rw [hcat, if_neg (by omega : ¬ b ≥ 600), if_pos hmid]
    · rw [hcat, if_neg (by omega : ¬ b ≥ 600),
        if_neg (by omega : ¬ (60 < b ∧ b < 600))]

/-- C5 witness: the thresholds theorem applied at concrete inputs — the
source-A game `cmapWin` (base 600, rapid) and the source-B record
`lgameNoEnd` (base 60, bullet). -/
theorem c5_timecategory_thresholds_witness :
    (chesscom_generate_supplemental_tags tzId cmapWin).bind
      (fun g => getTag g (lit "timecategory")) = some (TagValue.str (lit "rapid")) ∧
    (lichess_convert_json_game tzId lgameNoEnd).bind
      (fun p => getTag p.1 (lit "timecategory")) = some (TagValue.str (lit "bullet")) := by
  constructor
  · rcases hE : chesscom_generate_supplemental_tags tzId cmapWin with _ | g
    · exact absurd hE (by decide)
    · exact (c5_timecategory_thresholds.1 tzId cmapWin g (lit "600") 600 hE
        (by decide) (by decide) (by decide)).1 (by omega)
  · rcases hE : lichess_convert_json_game tzId lgameNoEnd with _ | p
    · exact absurd hE (by decide)
    · obtain ⟨g, keep⟩ := p
      exact (c5_timecategory_thresholds.2 tzId lgameNoEnd g keep (lit "60+0")
        (lit "0") 60 0 hE (by decide) (by decide) (by decide) (by decide)
        (by decide)).2.2 (by omega)

/-- Lemma: `chesscom_step_elodiff` always writes an integer `elodiff`. -/
theorem chesscom_step_elodiff_int (g g' : TagMap)
    (h : chesscom_step_elodiff g = some g') :
    ∃ n : Int, getTag g' (lit "elodiff") = some (TagValue.int n) := by
  unfold chesscom_step_elodiff at h
  split at h
  case h_2 => exact absurd h (by simp)
  case h_1 wv hwv =>
    split at h
    case h_2 => exact absurd h (by simp)
    case h_1 we be hwe hbe =>
      split at h
      case h_2 => exact absurd h (by simp)
      case h_1 w b hw hb =>
        obtain ⟨rfl⟩ := h
        exact ⟨_, getTag_setTag_self _ _ _⟩

/-- Repeatedly inserting string values preserves "every stored value is a
string". -/
theorem getTag_str_of_strInserts (l : List (Str × Str)) :
    ∀ (m : TagMap), (∀ k v, getTag m k = some v → ∃ t, v = TagValue.str t) →
      ∀ k v,
        getTag (l.foldl (fun m kv => setTag m (lowerStr kv.1) (TagValue.str kv.2)) m) k = some v →
        ∃ t, v = TagValue.str t := by
  induction l with
  | nil => intro m hm; exact hm
  | cons a l ih =>
    intro m hm k v hv
    refine ih _ ?_ k v hv
    intro k2 v2 hv2
    rw [getTag_setTag] at hv2
    split at hv2
    · exact ⟨_, (Option.some.inj hv2).symm⟩
    · exact hm k2 v2 hv2

/-- Every value stored by the source-B tag extraction is a string. -/
theorem lichess_extract_vals_str (p k : Str) (v : TagValue)
    (h : getTag (lichess_extract_pgn_tags_from_json p) k = some v) :
    ∃ t, v = TagValue.str t := by
  unfold lichess_extract_pgn_tags_from_json at h
  rw [getTag_setTag] at h
  split at h
  · exact ⟨_, (Option.some.inj h).symm⟩
  · refine getTag_str_of_strInserts _ [] ?_ k v h
    intro k2 v2 hv2
    simp [getTag] at hv2

/-- C6 counterexample: the claim states that `elodiff` is always an integer
or null.  On the source-B record `lgameB` (a game with a `WhiteRatingDiff`
tag) the derivation completes and `elodiff` holds the raw tag *string*
`"+8"`, which is neither an integer cell nor null. -/
theorem c6_lichess_elodiff_is_string :
    (lichess_convert_json_game tzId lgameB).bind
      (fun p => getTag p.1 (lit "elodiff")) = some (TagValue.str (lit "+8")) ∧
    ¬ isIntCell (some (TagValue.str (lit "+8"))) ∧
    TagValue.str (lit "+8") ≠ TagValue.null := by
  refine ⟨by decide, fun h => h, by decide⟩

/-- C6 amended: on completion, source A's `elodiff` is always an integer
(difference of the parsed elo tags), while source B's `elodiff` is the raw
rating-delta tag string when present and null otherwise — a string-or-null
cell, not an integer. -/
theorem c6_elodiff_type_by_source :
    (∀ (tz : Str → Str → Option (Str × Str)) (m g : TagMap),
      chesscom_generate_supplemental_tags tz m = some g →
      isIntCell (getTag g (lit "elodiff"))) ∧
    (∀ (tz : Str → Str → Option (Str × Str)) (j : LichessGame) (g : TagMap)
        (keep : Bool),
      lichess_convert_json_game tz j = some (g, keep) →
      isStrOrNullCell (getTag g (lit "elodiff"))) := by
  constructor
  · intro tz m g hder
    obtain ⟨g1, g2, g3, g4, g5, g6, h1, h2, h3, h4, h5, h6, h7⟩ :=
      chesscom_chain tz m g hder
    obtain ⟨n, hn⟩ := chesscom_step_elodiff_int g3 g4 h4
    have : getTag g (lit "elodiff") = some (TagValue.int n) := by
      rw [chesscom_step_site_pres g6 g _ h7 (by decide),
        step_nmoves_pres g5 g6 _ h6 (by decide),
        chesscom_step_timecontrol_pres g4 g5 _ h5 (by decide) (by decide), hn]
    rw [this]
    trivial
  · intro tz j g keep hder
    obtain ⟨t1, t3, t4, ev, t5, t6, h1, h3, h4, hev, hkeep, h5, h6, h7⟩ :=
      lichess_chain tz j g keep hder
    have hpres : ∀ k : Str, ¬ k = lit "localdate" → ¬ k = lit "localtime" →
        ¬ k = lit "game_id" → ¬ k = lit "currentposition" →
        ¬ k = lit "ending" → ¬ k = lit "moves" → ¬ k = lit "result" →
        getTag t4 k = getTag (lichess_extract_pgn_tags_from_json j.pgn) k := by
      intro k k1 k2 k3 k4 k5 k6 k7
      rw [lichess_step_result_pres j.winner t3 t4 _ h4 k7,
        lichess_step_ending_moves_pres _ t3 _ h3 k5 k6,
        getTag_setTag_ne _ _ _ _ (fun hh => k4 hh.symm),
        getTag_setTag_ne _ _ _ _ (fun hh => k3 hh.symm),
        step_local_pres tz _ t1 _ h1 k1 k2]
    have hg5 : getTag g (lit "elodiff") = getTag t5 (lit "elodiff") := by
      rw [step_nmoves_pres t6 g _ h7 (by decide),
        lichess_step_timecontrol_pres t5 t6 _ h6 (by decide) (by decide)]
    rcases lichess_step_elodiff_spec t4 t5 h5 with hspec | hspec
    · rw [hg5, hspec, hpres (lit "whiteratingdiff") (by decide) (by decide)
        (by decide) (by decide) (by decide) (by decide) (by decide)]
      rcases hx : getTag (lichess_extract_pgn_tags_from_json j.pgn)
          (lit "whiteratingdiff") with _ | v
      · trivial
      · obtain ⟨t, rfl⟩ := lichess_extract_vals_str j.pgn _ v hx
        trivial
    · rw [hg5, hspec, hpres (lit "blackratingdiff") (by decide) (by decide)
        (by decide) (by decide) (by decide) (by decide) (by decide)]
      rcases hx : getTag (lichess_extract_pgn_tags_from_json j.pgn)
          (lit "blackratingdiff") with _ | v
      · trivial
      · obtain ⟨t, rfl⟩ := lichess_extract_vals_str j.pgn _ v hx
        trivial

/-- C6 witness: the amended type statement applied at the concrete inputs
`cmapWin` (source A) and `lgameB` (source B). -/
theorem c6_elodiff_type_by_source_witness :
    isIntCell ((chesscom_generate_supplemental_tags tzId cmapWin).bind
      (fun g => getTag g (lit "elodiff"))) ∧
    isStrOrNullCell ((lichess_convert_json_game tzId lgameB).bind
      (fun p => getTag p.1 (lit "elodiff"))) := by
  constructor
  · rcases hE : chesscom_generate_supplemental_tags tzId cmapWin with _ | g
    · exact absurd hE (by decide)
    · exact c6_elodiff_type_by_source.1 tzId cmapWin g hE
  · rcases hE : lichess_convert_json_game tzId lgameB with _ | p
    · exact absurd hE (by decide)
    · obtain ⟨g, keep⟩ := p
      exact c6_elodiff_type_by_source.2 tzId lgameB g keep hE

/-- Source A leaves the `ending` cell unset when the termination phrase
matches no case (and the record is still produced). -/
theorem chesscom_ending_unset (tz : Str → Str → Option (Str × Str))
    (m g : TagMap) (term : Str)
    (hder : chesscom_generate_supplemental_tags tz m = some g)
    (hterm : getTag m (lit "termination") = some (TagValue.str term))
    (hcase : chesscomEndingCase (joinWords (lastTwoOf (pyWords term))) = none)
    (hnone : getTag m (lit "ending") = none) :
    getTag g (lit "ending") = none := by
  obtain ⟨g1, g2, g3, g4, g5, g6, h1, h2, h3, h4, h5, h6, h7⟩ :=
    chesscom_chain tz m g hder
  have hterm2 : getTag g2 (lit "termination") = some (TagValue.str term) := by
    rw [chesscom_step_game_id_pres g1 g2 _ h2 (by decide),
      step_local_pres tz m g1 _ h1 (by decide) (by decide), hterm]
  have hend2 : getTag g2 (lit "ending") = none := by
    rw [chesscom_step_game_id_pres g1 g2 _ h2 (by decide),
      step_local_pres tz m g1 _ h1 (by decide) (by decide), hnone]
  rw [chesscom_step_site_pres g6 g _ h7 (by decide),
    step_nmoves_pres g5 g6 _ h6 (by decide),
    chesscom_step_timecontrol_pres g4 g5 _ h5 (by decide) (by decide),
    chesscom_step_elodiff_pres g3 g4 _ h4 (by decide),
    chesscom_step_result_ending_no_ending g2 g3 term h3 hterm2 hcase, hend2]

/-- Source B's per-record `keep` flag is exactly "the ending classified":
a kept record carries a non-empty ending string, a dropped one carries
`None`. -/
theorem lichess_keep_spec (tz : Str → Str → Option (Str × Str))
    (j : LichessGame) (g : TagMap) (keep : Bool) (mv : Str)
    (hder : lichess_convert_json_game tz j = some (g, keep))
    (hmv : getTag (lichess_extract_pgn_tags_from_json j.pgn) (lit "moves") =
      some (TagValue.str mv)) :
    keep = (lichess_extract_ending_from_pgn mv).isSome ∧
    (keep = true →
      ∃ s, getTag g (lit "ending") = some (TagValue.str s) ∧ ¬ s = []) ∧
    (keep = false → getTag g (lit "ending") = some TagValue.null) := by
  obtain ⟨t1, t3, t4, ev, t5, t6, h1, h3, h4, hev, hkeep, h5, h6, h7⟩ :=
    lichess_chain tz j g keep hder
  have hmv2 : getTag (setTag (setTag t1 (lit "game_id") (TagValue.str j.id))
      (lit "currentposition") (TagValue.str j.lastFen)) (lit "moves") =
      some (TagValue.str mv) := by
    rw [getTag_setTag_ne _ _ _ _ (by decide), getTag_setTag_ne _ _ _ _ (by decide),
      step_local_pres tz _ t1 _ h1 (by decide) (by decide), hmv]
  have hend4 : getTag t4 (lit "ending") =
      some (match lichess_extract_ending_from_pgn mv with
            | some e => TagValue.str e
            | none => TagValue.null) := by
    rw [lichess_step_result_pres j.winner t3 t4 _ h4 (by decide)]
    exact lichess_step_ending_moves_spec _ t3 mv h3 hmv2
  rw [hev] at hend4
  have hevv := Option.some.inj hend4
  have hendg : getTag g (lit "ending") = some ev := by
    rw [step_nmoves_pres t6 g _ h7 (by decide),
      lichess_step_timecontrol_pres t5 t6 _ h6 (by decide) (by decide),
      lichess_step_elodiff_pres t4 t5 _ h5 (by decide), hev]
  rcases hx : lichess_extract_ending_from_pgn mv with _ | e
  · rw [hx] at hevv
    simp only [] at hevv
    refine ⟨?_, ?_, ?_⟩
    · rw [hkeep, hevv]
      rfl
    · intro hk
      rw [hkeep, hevv] at hk
      exact absurd hk (by decide)
    · intro _
      rw [hendg, hevv]
  · have hne := lichess_ending_ne_nil mv e hx
    rw [hx] at hevv
    simp only [] at hevv
    refine ⟨?_, ?_, ?_⟩
    · rw [hkeep, hevv]
      cases e with
      | nil => exact absurd rfl hne
      | cons a as => rfl
    · intro _
      exact ⟨e, by rw [hendg, hevv], hne⟩
    · intro hk
      rw [hkeep, hevv] at hk
      cases e with
      | nil => exact absurd rfl hne
      | cons a as => simp [truthy] at hk

/-- Every record of the source-B output sequence has a classified (non-null,
non-empty) ending. -/
theorem lichess_output_endings (tz : Str → Str → Option (Str × Str)) :
    ∀ (js : List LichessGame) (out : List TagMap),
      lichess_convert_json_list_to_pgn_list tz js = some out →
      ∀ r ∈ out, ∃ s, getTag r (lit "ending") = some (TagValue.str s) ∧ ¬ s = [] := by
  intro js
  induction js with
  | nil =>
    intro out h r hr
    unfold lichess_convert_json_list_to_pgn_list at h
    obtain ⟨rfl⟩ := h
    cases hr
  | cons j js ih =>
    intro out h r hr
    unfold lichess_convert_json_list_to_pgn_list at h
    rw [Option.bind_eq_some] at h
    obtain ⟨p, hp, h2⟩ := h
    rw [Option.map_eq_some'] at h2
    obtain ⟨out2, hrec, hout⟩ := h2
    obtain ⟨g, keep⟩ := p
    have hspec := lichess_keep_spec tz j g keep _ hp (lichess_extract_moves j.pgn)
    by_cases hk : keep = true
    · rw [hk] at hout
      simp only [if_true] at hout
      subst hout
      rw [List.mem_cons] at hr
      rcases hr with rfl | hr2
      · exact hspec.2.1 hk
      · exact ih out2 hrec r hr2
    · rw [Bool.not_eq_true] at hk
      rw [hk] at hout
      simp only [if_false] at hout
      subst hout
      exact ih out2 hrec r hr

/-- C7: when the ending is unclassifiable, source A's derivation leaves the
`ending` cell unset on the (still produced) record, while source B includes
a record in its output exactly when its ending classified (the `keep` flag
equals classification success, a kept record carries a non-empty ending
string, a dropped one carries `None`), and every record of source B's
output sequence therefore has a non-null ending. -/
theorem c7_unclassifiable_ending_policy :
    (∀ (tz : Str → Str → Option (Str × Str)) (m g : TagMap) (term : Str),
      chesscom_generate_supplemental_tags tz m = some g →
      getTag m (lit "termination") = some (TagValue.str term) →
      chesscomEndingCase (joinWords (lastTwoOf (pyWords term))) = none →
      getTag m (lit "ending") = none →
      getTag g (lit "ending") = none) ∧
    (∀ (tz : Str → Str → Option (Str × Str)) (j : LichessGame) (g : TagMap)
        (keep : Bool) (mv : Str),
      lichess_convert_json_game tz j = some (g, keep) →
      getTag (lichess_extract_pgn_tags_from_json j.pgn) (lit "moves") =
        some (TagValue.str mv) →
      keep = (lichess_extract_ending_from_pgn mv).isSome ∧
      (keep = true →
        ∃ s, getTag g (lit "ending") = some (TagValue.str s) ∧ ¬ s = []) ∧
      (keep = false → getTag g (lit "ending") = some TagValue.null)) ∧
    (∀ (tz : Str → Str → Option (Str × Str)) (js : List LichessGame)
        (out : List TagMap),
      lichess_convert_json_list_to_pgn_list tz js = some out →
      ∀ r ∈ out, ∃ s, getTag r (lit "ending") = some (TagValue.str s) ∧ ¬ s = []) :=
  ⟨chesscom_ending_unset, lichess_keep_spec, lichess_output_endings⟩

/-- C7 witness: the policy theorem applied at concrete inputs — the
source-A mapping `cmapUnclass` (termination phrase "by adjudication",
matching no case, record still produced with `ending` unset), and the
source-B records `lgameB` (classified, kept) and `lgameNoEnd` (no
annotation, dropped). -/
theorem c7_unclassifiable_ending_policy_witness :
    (chesscom_generate_supplemental_tags tzId cmapUnclass ≠ none ∧
      (chesscom_generate_supplemental_tags tzId cmapUnclass).bind
        (fun g => getTag g (lit "ending")) = none) ∧
    (lichess_convert_json_game tzId lgameB).map (fun p => p.2) = some true ∧
    (lichess_convert_json_game tzId lgameNoEnd).map (fun p => p.2) = some false := by
  refine ⟨?_, ?_, ?_⟩
  · rcases hE : chesscom_generate_supplemental_tags tzId cmapUnclass with _ | g
    · exact absurd hE (by decide)
    · refine ⟨by simp, ?_⟩
      exact c7_unclassifiable_ending_policy.1 tzId cmapUnclass g
        (lit "seanyseand won by adjudication") hE (by decide) (by decide) (by decide)
  · rcases hE : lichess_convert_json_game tzId lgameB with _ | p
    · exact absurd hE (by decide)
    · obtain ⟨g, keep⟩ := p
      have hk := (c7_unclassifiable_ending_policy.2.1 tzId lgameB g keep _ hE
        (lichess_extract_moves lgameB.pgn)).1
      simp only [Option.map_some']
      rw [hk]
      decide
  · rcases hE : lichess_convert_json_game tzId lgameNoEnd with _ | p
    · exact absurd hE (by decide)
    · obtain ⟨g, keep⟩ := p
      have hk := (c7_unclassifiable_ending_policy.2.1 tzId lgameNoEnd g keep _ hE
        (lichess_extract_moves lgameNoEnd.pgn)).1
      simp only [Option.map_some']
      rw [hk]
      decide

/-- C8: for a source-A mapping with integer-valued elo tags, the completed
derivation sets `elodiff = whiteelo - blackelo` when the `white` tag equals
the configured identity, and `elodiff = blackelo - whiteelo` otherwise. -/
theorem c8_chesscom_elodiff_formula :
    ∀ (tz : Str → Str → Option (Str × Str)) (m g : TagMap) (wv : TagValue)
      (we be : Str) (w b : Int),
      chesscom_generate_supplemental_tags tz m = some g →
      getTag m (lit "white") = some wv →
      getTag m (lit "whiteelo") = some (TagValue.str we) →
      getTag m (lit "blackelo") = some (TagValue.str be) →
      pyIntStr we = some w → pyIntStr be = some b →
      (wv = TagValue.str (lit "seanyseand") →
        getTag g (lit "elodiff") = some (TagValue.int (w - b))) ∧
      (¬ wv = TagValue.str (lit "seanyseand") →
        getTag g (lit "elodiff") = some (TagValue.int (b - w))) := by
  intro tz m g wv we be w b hder hwv hwe hbe hw hb
  obtain ⟨g1, g2, g3, g4, g5, g6, h1, h2, h3, h4, h5, h6, h7⟩ :=
    chesscom_chain tz m g hder
  have pres3 : ∀ k : Str, ¬ k = lit "localdate" → ¬ k = lit "localtime" →
      ¬ k = lit "game_id" → ¬ k = lit "result" → ¬ k = lit "ending" →
      getTag g3 k = getTag m k := by
    intro k k1 k2 k3 k4 k5
    rw [chesscom_step_result_ending_pres g2 g3 _ h3 k4 k5,
      chesscom_step_game_id_pres g1 g2 _ h2 k3,
      step_local_pres tz m g1 _ h1 k1 k2]
  have hspec := chesscom_step_elodiff_spec g3 g4 wv we be w b h4
    (by rw [pres3 _ (by decide) (by decide) (by decide) (by decide) (by decide)]
        exact hwv)
    (by rw [pres3 _ (by decide) (by decide) (by decide) (by decide) (by decide)]
        exact hwe)
    (by rw [pres3 _ (by decide) (by decide) (by decide) (by decide) (by decide)]
        exact hbe)
    hw hb
  have hfin : getTag g (lit "elodiff") = some (TagValue.int
      (if wv = TagValue.str (lit "seanyseand") then w - b else b - w)) := by
    rw [chesscom_step_site_pres g6 g _ h7 (by decide),
      step_nmoves_pres g5 g6 _ h6 (by decide),
      chesscom_step_timecontrol_pres g4 g5 _ h5 (by decide) (by decide), hspec]
  exact ⟨fun h => by rw [hfin, if_pos h], fun h => by rw [hfin, if_neg h]⟩

/-- C8 witness: the formula applied at `cmapWin` (subject is white, elo
1500 vs 1400, `elodiff = +100`) and `cmapBlack` (subject is black,
`elodiff = -100`). -/
theorem c8_chesscom_elodiff_formula_witness :
    (chesscom_generate_supplemental_tags tzId cmapWin).bind
      (fun g => getTag g (lit "elodiff")) = some (TagValue.int 100) ∧
    (chesscom_generate_supplemental_tags tzId cmapBlack).bind
      (fun g => getTag g (lit "elodiff")) = some (TagValue.int (-100)) := by
  constructor
  · rcases hE : chesscom_generate_supplemental_tags tzId cmapWin with _ | g
    · exact absurd hE (by decide)
    · have h := (c8_chesscom_elodiff_formula tzId cmapWin g
        (TagValue.str (lit "seanyseand")) (lit "1500") (lit "1400") 1500 1400
        hE (by decide) (by decide) (by decide) (by decide) (by decide)).1 rfl
      have he : (1500 : Int) - 1400 = 100 := by norm_num
      rw [he] at h
      exact h
  · rcases hE : chesscom_generate_supplemental_tags tzId cmapBlack with _ | g
    · exact absurd hE (by decide)
    · have h := (c8_chesscom_elodiff_formula tzId cmapBlack g
        (TagValue.str (lit "opponent")) (lit "1500") (lit "1400") 1500 1400
        hE (by decide) (by decide) (by decide) (by decide) (by decide)).2 (by decide)
      have he : (1400 : Int) - 1500 = -100 := by norm_num
      rw [he] at h
      exact h

/-- Full characterization of `step_nmoves`: it reads the `moves` cell
(which must be a string), leaves it unchanged, and writes its segment
count to `nmoves`. -/
theorem step_nmoves_char (g g' : TagMap) (h : step_nmoves g = some g') :
    ∃ mv, getTag g (lit "moves") = some (TagValue.str mv) ∧
      getTag g' (lit "nmoves") = some (TagValue.int (nmovesOf mv)) ∧
      getTag g' (lit "moves") = some (TagValue.str mv) := by
  unfold step_nmoves at h
  split at h
  case h_2 => exact absurd h (by simp)
  case h_1 mv hmv =>
    obtain ⟨rfl⟩ := h
    exact ⟨mv, hmv, getTag_setTag_self _ _ _,
      by rw [getTag_setTag_ne _ _ _ _ (by decide), hmv]⟩

/-- C9: both derivation engines set `nmoves` to the number of segments of
the move text — split on move-number tokens `<digits>.` — that are
non-empty after stripping; the text `"1. e4 e5 2. Nf3 Nc6"` has exactly 2
such segments, and the count is a non-negative integer by construction. -/
theorem c9_nmoves_segment_count :
    (∀ (tz : Str → Str → Option (Str × Str)) (m g : TagMap) (mv : Str),
      chesscom_generate_supplemental_tags tz m = some g →
      getTag m (lit "moves") = some (TagValue.str mv) →
      getTag g (lit "nmoves") = some (TagValue.int (nmovesOf mv))) ∧
    (∀ (tz : Str → Str → Option (Str × Str)) (j : LichessGame) (g : TagMap)
        (keep : Bool) (mv : Str),
      lichess_convert_json_game tz j = some (g, keep) →
      getTag g (lit "moves") = some (TagValue.str mv) →
      getTag g (lit "nmoves") = some (TagValue.int (nmovesOf mv))) ∧
    nmovesOf (lit "1. e4 e5 2. Nf3 Nc6") = 2 ∧
    (∀ mv : Str, 0 ≤ (nmovesOf mv : Int)) := by
  refine ⟨?_, ?_, by decide, fun mv => Int.natCast_nonneg _⟩
  · intro tz m g mv hder hmv
    obtain ⟨g1, g2, g3, g4, g5, g6, h1, h2, h3, h4, h5, h6, h7⟩ :=
      chesscom_chain tz m g hder
    have hmv5 : getTag g5 (lit "moves") = some (TagValue.str mv) := by
      rw [chesscom_step_timecontrol_pres g4 g5 _ h5 (by decide) (by decide),
        chesscom_step_elodiff_pres g3 g4 _ h4 (by decide),
        chesscom_step_result_ending_pres g2 g3 _ h3 (by decide) (by decide),
        chesscom_step_game_id_pres g1 g2 _ h2 (by decide),
        step_local_pres tz m g1 _ h1 (by decide) (by decide), hmv]
    rw [chesscom_step_site_pres g6 g _ h7 (by decide)]
    exact step_nmoves_spec g5 g6 mv h6 hmv5
  · intro tz j g keep mv hder hgmv
    obtain ⟨t1, t3, t4, ev, t5, t6, h1, h3, h4, hev, hkeep, h5, h6, h7⟩ :=
      lichess_chain tz j g keep hder
    obtain ⟨mv2, hread, hcount, hkept⟩ := step_nmoves_char t6 g h7
    rw [hkept] at hgmv
    obtain rfl : mv2 = mv := TagValue.str.inj (Option.some.inj hgmv)
    exact hcount

/-- C9 witness: the move-count theorem applied at `cmapWin` (source A,
moves `"1. e4 e5 2. Nf3 Nc6"`, count 2) and `lgameB` (source B, rewritten
moves `"1. e4 e5  0-1"`, count 1). -/
theorem c9_nmoves_segment_count_witness :
    (chesscom_generate_supplemental_tags tzId cmapWin).bind
      (fun g => getTag g (lit "nmoves")) = some (TagValue.int 2) ∧
    (lichess_convert_json_game tzId lgameB).bind
      (fun p => getTag p.1 (lit "nmoves")) = some (TagValue.int 1) := by
  constructor
  · rcases hE : chesscom_generate_supplemental_tags tzId cmapWin with _ | g
    · exact absurd hE (by decide)
    · have h := c9_nmoves_segment_count.1 tzId cmapWin g
        (lit "1. e4 e5 2. Nf3 Nc6") hE (by decide)
      rw [c9_nmoves_segment_count.2.2.1] at h
      exact h
  · rcases hE : lichess_convert_json_game tzId lgameB with _ | p
    · exact absurd hE (by decide)
    · obtain ⟨g, keep⟩ := p
      have hmv : getTag g (lit "moves") =
          some (TagValue.str (lit "1. e4 e5  0-1")) := by
        have h2 : (lichess_convert_json_game tzId lgameB).bind
            (fun p => getTag p.1 (lit "moves")) =
            some (TagValue.str (lit "1. e4 e5  0-1")) := by decide
        rw [hE] at h2
        exact h2
      have h := c9_nmoves_segment_count.2.1 tzId lgameB g keep
        (lit "1. e4 e5  0-1") hE hmv
      have hc : nmovesOf (lit "1. e4 e5  0-1") = 1 := by decide
      rw [hc] at h
      exact h

/-- C10: on a raw unit containing no `"\n\n"` boundary, both tag extractors
still produce a `moves` cell without raising: `find` returns `-1`, so the
slice starts at character index 1 and the `moves` cell is the unit's text
from index 1 on, whitespace-stripped (source A additionally applies its
standard clock/ellipsis rewriting to that text, as it does to every unit). -/
theorem c10_moves_without_blank_line :
    ∀ u : Str, firstOcc (lit "\n\n") u = none →
      getTag (chesscom_extract_pgn_tags u) (lit "moves") =
        some (TagValue.str (reSubEllipsis (reSubClock (pyStrip (u.drop 1))))) ∧
      getTag (lichess_extract_pgn_tags_from_json u) (lit "moves") =
        some (TagValue.str (pyStrip (u.drop 1))) := by
  intro u hu
  have hdrop : ((pyFind (lit "\n\n") u) + 2).toNat = 1 := by
    unfold pyFind
    rw [hu]
    rfl
  constructor
  · rw [chesscom_extract_moves u, hdrop]
  · rw [lichess_extract_moves u, hdrop]

/-- C10 witness: the boundary-less unit `"[Event \x22x\x22]"` (a lone tag
header with no blank line): both extractors set `moves` to the text from
index 1 on, stripped (here `"Event \x22x\x22]"`). -/
theorem c10_moves_without_blank_line_witness :
    getTag (chesscom_extract_pgn_tags (lit "[Event \x22x\x22]")) (lit "moves") =
      some (TagValue.str (reSubEllipsis (reSubClock
        (pyStrip ((lit "[Event \x22x\x22]").drop 1))))) ∧
    getTag (lichess_extract_pgn_tags_from_json (lit "[Event \x22x\x22]"))
      (lit "moves") =
      some (TagValue.str (pyStrip ((lit "[Event \x22x\x22]").drop 1))) :=
  c10_moves_without_blank_line _ (by decide)
